import Mathlib

/-!
# Verification of the text-chunking layer (splitters.py)

Shallow embedding of `Code/testing_tools/evaluation_framework/splitters/splitters.py`:
the sliding-window `TokenSplitter`/`CharSplitter`, the greedy `SentenceSplitter`
with its overlap rewrite, and the `build_splitter` factory.

Python strings are modelled as `String`/`List Char`; the tiktoken tokenizer is an
abstract pair of functions `enc : String → List Nat` and `dec : List Nat → String`.
The `for i in range(0, len, step)` loop of the sliding-window splitters is embedded
as a structurally recursive function with an explicit iteration bound (fuel); the
theorem for the termination claim shows that `length + 1` iterations always suffice.
-/

namespace RagSplitters

/-! ## Sliding-window splitters (TokenSplitter.split / CharSplitter.split) -/

/-- One loop of
`for i in range(0, len(units), step): chunk = units[i:i+chunk_size]; append; if i + chunk_size >= len(units): break`,
with an explicit bound `fuel` on the number of iterations (`none` if the bound is hit). -/
def splitFromFuel {α : Type} (chunk_size step : Nat) :
    Nat → Nat → List α → Option (List (List α))
  | 0, _, _ => none
  | fuel + 1, i, units =>
    if i < units.length then
      if units.length ≤ i + chunk_size then
        some [(units.drop i).take chunk_size]
      else
        (splitFromFuel chunk_size step fuel (i + step) units).map
          fun rest => (units.drop i).take chunk_size :: rest
    else
      some []

/-- The sliding-window split over an arbitrary unit sequence, with
`step = max(1, chunk_size - overlap)` as in the source.  `units.length + 1`
iterations are always enough (proved below), so the `getD []` default is dead code. -/
def slidingSplit {α : Type} (chunk_size overlap : Nat) (units : List α) : List (List α) :=
  (splitFromFuel chunk_size (max 1 (chunk_size - overlap)) (units.length + 1) 0 units).getD []

/-- `CharSplitter.split`: the sliding window over the characters of `text`. -/
def CharSplitter.split (chunk_size overlap : Nat) (text : String) : List String :=
  (slidingSplit chunk_size overlap text.data).map fun l => String.mk l

/-- `TokenSplitter.split`: encode, slide the window over the token list, decode
each token slice. -/
def TokenSplitter.split (enc : String → List Nat) (dec : List Nat → String)
    (chunk_size overlap : Nat) (text : String) : List String :=
  (slidingSplit chunk_size overlap (enc text)).map dec

/-! ## SentenceSplitter -/

/-- Terminal punctuation recognized by the sentence-boundary regex `(?<=[.!?])\s+`. -/
def isPunct (c : Char) : Bool :=
  c = '.' || c = '!' || c = '?'

/-- Python `str.strip()` on a character list: drop whitespace from both ends. -/
def strip (l : List Char) : List Char :=
  ((l.dropWhile Char.isWhitespace).reverse.dropWhile Char.isWhitespace).reverse

/-- True when the current (reversed) piece ends in terminal punctuation: the
lookbehind `(?<=[.!?])` of the sentence-boundary regex. -/
def punctHead : List Char → Bool
  | [] => false
  | c :: _ => isPunct c

/-- State machine for `re.split(r"(?<=[.!?])\s+", text)`: `acc` is the current
piece reversed, `inSep` is true while consuming a maximal whitespace separator run. -/
def sentencesGo (acc : List Char) (inSep : Bool) : List Char → List (List Char)
  | [] => [if inSep then [] else acc.reverse]
  | c :: rest =>
    if inSep then
      if c.isWhitespace then sentencesGo acc true rest
      else sentencesGo [c] false rest
    else
      if c.isWhitespace && punctHead acc then
        acc.reverse :: sentencesGo [] true rest
      else
        sentencesGo (c :: acc) false rest

/-- `self.sentence_re.split(text.strip())`. -/
def SentenceSplitter.sentences (text : String) : List (List Char) :=
  sentencesGo [] false (strip text.data)

/-- The greedy accumulation loop of `SentenceSplitter.split`: skip empty
sentences; extend the running chunk while `len(candidate) <= chunk_size`,
where `candidate = f"{current} {sent}".strip()`; otherwise emit the running
chunk (if non-empty) and restart from the sentence that did not fit. -/
def greedy (chunk_size : Nat) : List (List Char) → List Char → List (List Char)
  | [], current => if current.isEmpty then [] else [current]
  | s :: rest, current =>
    if s.isEmpty then greedy chunk_size rest current
    else
      let candidate := strip (current ++ ' ' :: s)
      if candidate.length ≤ chunk_size then greedy chunk_size rest candidate
      else if current.isEmpty then greedy chunk_size rest s
      else current :: greedy chunk_size rest s

/-- The chunks produced by the greedy accumulation phase, before any overlap rewrite. -/
def SentenceSplitter.greedyChunks (chunk_size : Nat) (text : String) : List (List Char) :=
  greedy chunk_size (SentenceSplitter.sentences text) []

/-- Python `prev[-overlap:]` for `overlap ≥ 1`: the last `overlap` characters
(the whole list when it is shorter than `overlap`). -/
def takeLast (n : Nat) (l : List Char) : List Char :=
  l.drop (l.length - n)

/-- The overlap rewrite loop: each later chunk becomes
`f"{prev[-overlap:]} {chunk}".strip()` where `prev` is the previous chunk of the
rewritten output list. -/
def overlapGo (overlap : Nat) (prev : List Char) : List (List Char) → List (List Char)
  | [] => []
  | c :: rest =>
    let merged := strip (takeLast overlap prev ++ ' ' :: c)
    merged :: overlapGo overlap merged rest

/-- `SentenceSplitter.split` at character-list level: greedy accumulation,
then the overlap rewrite when `overlap > 0` and more than one chunk resulted. -/
def SentenceSplitter.splitChars (chunk_size overlap : Nat) (text : String) :
    List (List Char) :=
  let chunks := SentenceSplitter.greedyChunks chunk_size text
  if 0 < overlap ∧ 1 < chunks.length then
    match chunks with
    | [] => []
    | c0 :: rest => c0 :: overlapGo overlap c0 rest
  else chunks

/-- `SentenceSplitter.split`, producing Python strings. -/
def SentenceSplitter.split (chunk_size overlap : Nat) (text : String) : List String :=
  (SentenceSplitter.splitChars chunk_size overlap text).map fun l => String.mk l

/-! ## The factory (build_splitter) and construction -/

/-- A constructed splitter object: the constructors only store the configuration
(`__init__` of each class just assigns the fields, with no validation). -/
inductive Splitter : Type
  | token (chunk_size overlap : Int)
  | char (chunk_size overlap : Int)
  | sentence (chunk_size overlap : Int)
deriving DecidableEq

/-- ASCII lowercase of one character, as `str.lower()` acts on ASCII input. -/
def lowerChar (c : Char) : Char :=
  if 'A' ≤ c ∧ c ≤ 'Z' then Char.ofNat (c.toNat + 32) else c

/-- Python `splitter_type.lower()`. -/
def lower (s : String) : String :=
  String.mk (s.data.map lowerChar)

/-- `build_splitter`: lowercase the strategy name, dispatch to the three
constructors, otherwise raise `ValueError(f"Unsupported splitter_type: {splitter_type}")`. -/
def build_splitter (splitter_type : String) (chunk_size overlap : Int) :
    Except String Splitter :=
  let st := lower splitter_type
  if st = "token" then Except.ok (Splitter.token chunk_size overlap)
  else if st = "char" then Except.ok (Splitter.char chunk_size overlap)
  else if st = "sentence" then Except.ok (Splitter.sentence chunk_size overlap)
  else Except.error ("Unsupported splitter_type: " ++ st)

/-! ## Concrete tokenizer instance used by witnesses -/

/-- A concrete injective tokenizer encoding used to instantiate the abstract
`enc` parameter in witnesses: one token per character. -/
def encEx (s : String) : List Nat :=
  s.data.map Char.toNat

/-- The matching concrete decoding for `encEx`. -/
def decEx (l : List Nat) : String :=
  String.mk (l.map Char.ofNat)

end RagSplitters

namespace RagSplitters

/-! ## Lemmas about the sliding-window loop -/

/-- With a positive step, `units.length - i < fuel` iterations always complete the loop. -/
theorem splitFromFuel_isSome {α : Type} (chunk_size step : Nat) (hstep : 1 ≤ step) :
    ∀ (fuel i : Nat) (units : List α), units.length - i < fuel →
      ∃ r, splitFromFuel chunk_size step fuel i units = some r := by
  intro fuel
  induction fuel with
  | zero => intro i units hf; omega
  | succ fuel ih =>
    intro i units hf
    by_cases hi : i < units.length
    · by_cases hend : units.length ≤ i + chunk_size
      · refine ⟨[(units.drop i).take chunk_size], ?_⟩
        simp [splitFromFuel, hi, hend]
      · obtain ⟨r, hr⟩ := ih (i + step) units (by omega)
        refine ⟨(units.drop i).take chunk_size :: r, ?_⟩
        simp [splitFromFuel, hi, hend, hr]
    · exact ⟨[], by simp [splitFromFuel, hi]⟩

/-- Fuel `units.length + 1` suffices, and then the fuelled loop computes `slidingSplit`. -/
theorem splitFromFuel_complete {α : Type} (chunk_size overlap : Nat) (units : List α) :
    splitFromFuel chunk_size (max 1 (chunk_size - overlap)) (units.length + 1) 0 units =
      some (slidingSplit chunk_size overlap units) := by
  obtain ⟨r, hr⟩ := splitFromFuel_isSome chunk_size (max 1 (chunk_size - overlap))
    (le_max_left 1 _) (units.length + 1) 0 units (by omega)
  rw [slidingSplit, hr]
  rfl

/-- Every chunk the loop emits is a slice `units[j : j + chunk_size]`. -/
theorem splitFromFuel_mem {α : Type} (chunk_size step : Nat) :
    ∀ (fuel i : Nat) (units : List α) (r : List (List α)),
      splitFromFuel chunk_size step fuel i units = some r →
      ∀ c ∈ r, ∃ j, c = (units.drop j).take chunk_size := by
  intro fuel
  induction fuel with
  | zero => intro i units r h; simp [splitFromFuel] at h
  | succ fuel ih =>
    intro i units r h c hc
    simp only [splitFromFuel] at h
    by_cases hi : i < units.length
    · by_cases hend : units.length ≤ i + chunk_size
      · simp only [if_pos hi, if_pos hend, Option.some.injEq] at h
        subst h
        simp only [List.mem_singleton] at hc
        exact ⟨i, hc⟩
      · simp only [if_pos hi, if_neg hend, Option.map_eq_some'] at h
        obtain ⟨rest, hrest, hr⟩ := h
        subst hr
        rcases List.mem_cons.mp hc with hc | hc
        · exact ⟨i, hc⟩
        · exact ih (i + step) units rest hrest c hc
    · simp only [if_neg hi, Option.some.injEq] at h
      subst h
      simp at hc

/-- Every chunk of `slidingSplit` is a slice `units[j : j + chunk_size]`. -/
theorem slidingSplit_mem {α : Type} (chunk_size overlap : Nat) (units : List α) :
    ∀ c ∈ slidingSplit chunk_size overlap units,
      ∃ j, c = (units.drop j).take chunk_size := by
  intro c hc
  exact splitFromFuel_mem chunk_size (max 1 (chunk_size - overlap)) (units.length + 1) 0
    units (slidingSplit chunk_size overlap units) (splitFromFuel_complete _ _ _) c hc

/-- With `step = chunk_size` (the `overlap = 0` case), the emitted chunks tile the
remaining input: their concatenation is `units.drop i`. -/
theorem splitFromFuel_join {α : Type} (chunk_size : Nat) :
    ∀ (fuel i : Nat) (units : List α) (r : List (List α)),
      splitFromFuel chunk_size chunk_size fuel i units = some r →
      r.flatten = units.drop i := by
  intro fuel
  induction fuel with
  | zero => intro i units r h; simp [splitFromFuel] at h
  | succ fuel ih =>
    intro i units r h
    simp only [splitFromFuel] at h
    by_cases hi : i < units.length
    · by_cases hend : units.length ≤ i + chunk_size
      · simp only [if_pos hi, if_pos hend, Option.some.injEq] at h
        subst h
        have hlen : (units.drop i).length ≤ chunk_size := by
          simp [List.length_drop]; omega
        simp [List.take_of_length_le hlen]
      · simp only [if_pos hi, if_neg hend, Option.map_eq_some'] at h
        obtain ⟨rest, hrest, hr⟩ := h
        subst hr
        have hjoin := ih (i + chunk_size) units rest hrest
        simp only [List.flatten_cons, hjoin]
        calc (units.drop i).take chunk_size ++ units.drop (i + chunk_size)
            = (units.drop i).take chunk_size ++ (units.drop i).drop chunk_size := by
              rw [List.drop_drop]
          _ = units.drop i := List.take_append_drop _ _
    · simp only [if_neg hi, Option.some.injEq] at h
      subst h
      simp [List.drop_eq_nil_of_le (by omega : units.length ≤ i)]

end RagSplitters

namespace RagSplitters

/-- When the step does not exceed `chunk_size` and the loop starts inside the input,
the final emitted chunk is exactly the slice from some `j` to the end of the input. -/
theorem splitFromFuel_getLast {α : Type} (chunk_size step : Nat) (hstep : step ≤ chunk_size) :
    ∀ (fuel i : Nat) (units : List α) (r : List (List α)),
      splitFromFuel chunk_size step fuel i units = some r →
      i < units.length →
      ∃ j, j < units.length ∧ units.length ≤ j + chunk_size ∧
        r.getLast? = some (units.drop j) := by
  intro fuel
  induction fuel with
  | zero => intro i units r h _; simp [splitFromFuel] at h
  | succ fuel ih =>
    intro i units r h hi
    simp only [splitFromFuel] at h
    by_cases hend : units.length ≤ i + chunk_size
    · simp only [if_pos hi, if_pos hend, Option.some.injEq] at h
      subst h
      have hlen : (units.drop i).length ≤ chunk_size := by
        simp [List.length_drop]; omega
      refine ⟨i, hi, hend, ?_⟩
      simp [List.take_of_length_le hlen]
    · simp only [if_pos hi, if_neg hend, Option.map_eq_some'] at h
      obtain ⟨rest, hrest, hr⟩ := h
      subst hr
      obtain ⟨j, hj1, hj2, hj3⟩ := ih (i + step) units rest hrest (by omega)
      refine ⟨j, hj1, hj2, ?_⟩
      cases rest with
      | nil => simp at hj3
      | cons b t => rw [List.getLast?_cons_cons]; exact hj3

/-- Every position of the input from the loop start onward is covered by some
emitted chunk: the chunk starting at a `j` with `j ≤ k < j + chunk_size`. -/
theorem splitFromFuel_cover {α : Type} (chunk_size step : Nat) (hstep : step ≤ chunk_size) :
    ∀ (fuel i : Nat) (units : List α) (r : List (List α)),
      splitFromFuel chunk_size step fuel i units = some r →
      ∀ k, i ≤ k → k < units.length →
        ∃ c ∈ r, ∃ j, j ≤ k ∧ k < j + chunk_size ∧ c = (units.drop j).take chunk_size := by
  intro fuel
  induction fuel with
  | zero => intro i units r h; simp [splitFromFuel] at h
  | succ fuel ih =>
    intro i units r h k hik hk
    have hi : i < units.length := by omega
    simp only [splitFromFuel] at h
    by_cases hend : units.length ≤ i + chunk_size
    · simp only [if_pos hi, if_pos hend, Option.some.injEq] at h
      subst h
      exact ⟨(units.drop i).take chunk_size, List.mem_singleton.mpr rfl, i, hik,
        by omega, rfl⟩
    · simp only [if_pos hi, if_neg hend, Option.map_eq_some'] at h
      obtain ⟨rest, hrest, hr⟩ := h
      subst hr
      by_cases hkc : k < i + chunk_size
      · exact ⟨(units.drop i).take chunk_size, List.mem_cons_self _ _, i, hik, hkc, rfl⟩
      · obtain ⟨c, hc, j, hj⟩ := ih (i + step) units rest hrest k (by omega) hk
        exact ⟨c, List.mem_cons_of_mem _ hc, j, hj⟩

/-- Joining the strings made from a list of character lists is the string made
from its concatenation. -/
theorem join_map_mk (ls : List (List Char)) :
    String.join (ls.map fun l => String.mk l) = String.mk ls.flatten := by
  suffices h : ∀ (ls : List (List Char)) (a : List Char),
      List.foldl (fun r s => r ++ s) (String.mk a) (ls.map fun l => String.mk l) =
        String.mk (a ++ ls.flatten) by
    have := h ls []
    simpa [String.join] using this
  intro ls
  induction ls with
  | nil => intro a; simp
  | cons x xs ih =>
    intro a
    have hx : String.mk a ++ String.mk x = String.mk (a ++ x) := rfl
    simp only [List.map_cons, List.foldl_cons, hx, ih, List.flatten_cons,
      List.append_assoc]

end RagSplitters

namespace RagSplitters

/-- C1: for every input text, chunk_size ≥ 1 and 0 ≤ overlap < chunk_size, every
chunk of `CharSplitter.split` has character length ≤ chunk_size, and every chunk
of `TokenSplitter.split` is the decoding of a token slice of the encoded text of
length ≤ chunk_size. -/
theorem chunk_length_bound (text : String) (enc : String → List Nat)
    (dec : List Nat → String) (chunk_size overlap : Nat)
    (h1 : 1 ≤ chunk_size) (h2 : overlap < chunk_size) :
    (∀ c ∈ CharSplitter.split chunk_size overlap text, c.length ≤ chunk_size) ∧
    (∀ c ∈ TokenSplitter.split enc dec chunk_size overlap text,
      ∃ ts, ts.length ≤ chunk_size ∧
        (∃ j, ts = ((enc text).drop j).take chunk_size) ∧ c = dec ts) := by
  constructor
  · intro c hc
    simp only [CharSplitter.split, List.mem_map] at hc
    obtain ⟨l, hl, rfl⟩ := hc
    obtain ⟨j, rfl⟩ := slidingSplit_mem chunk_size overlap text.data l hl
    show (List.take chunk_size (List.drop j text.data)).length ≤ chunk_size
    rw [List.length_take]
    omega
  · intro c hc
    simp only [TokenSplitter.split, List.mem_map] at hc
    obtain ⟨ts, hts, rfl⟩ := hc
    obtain ⟨j, rfl⟩ := slidingSplit_mem chunk_size overlap (enc text) ts hts
    refine ⟨_, ?_, ⟨j, rfl⟩, rfl⟩
    rw [List.length_take]
    omega

theorem chunk_length_bound_witness :
    (∀ c ∈ CharSplitter.split 5 2 "abcdefghij", c.length ≤ 5) ∧
    (∀ c ∈ TokenSplitter.split encEx decEx 5 2 "abcdefghij",
      ∃ ts, ts.length ≤ 5 ∧
        (∃ j, ts = ((encEx "abcdefghij").drop j).take 5) ∧ c = decEx ts) :=
  chunk_length_bound "abcdefghij" encEx decEx 5 2 (by decide) (by decide)

/-- C2: with `overlap = 0` and any `chunk_size ≥ 1`, concatenating the chunks of
`CharSplitter.split` in order reconstructs the input text exactly. -/
theorem char_join_reconstructs (text : String) (chunk_size : Nat)
    (h : 1 ≤ chunk_size) :
    String.join (CharSplitter.split chunk_size 0 text) = text := by
  have hstep : max 1 (chunk_size - 0) = chunk_size := by omega
  have hc := splitFromFuel_complete chunk_size 0 text.data
  rw [hstep] at hc
  have hjoin := splitFromFuel_join chunk_size (text.data.length + 1) 0 text.data
    (slidingSplit chunk_size 0 text.data) hc
  rw [CharSplitter.split, join_map_mk, hjoin, List.drop_zero]

theorem char_join_reconstructs_witness :
    String.join (CharSplitter.split 5 0 "abcdefghij") = "abcdefghij" :=
  char_join_reconstructs "abcdefghij" 5 (by decide)

/-- C3: for every unit sequence and every configuration with `chunk_size ≥ 1` and
`0 ≤ overlap < chunk_size`, the sliding-window loop of `TokenSplitter.split` /
`CharSplitter.split` completes within `length + 1` iterations (the fuelled loop
returns `some` rather than exhausting its bound), computing `slidingSplit`; the
`SentenceSplitter` loops are structurally recursive, hence terminate for all inputs. -/
theorem split_terminates (α : Type) (units : List α) (chunk_size overlap : Nat)
    (h1 : 1 ≤ chunk_size) (h2 : overlap < chunk_size) :
    splitFromFuel chunk_size (max 1 (chunk_size - overlap)) (units.length + 1) 0 units =
      some (slidingSplit chunk_size overlap units) :=
  splitFromFuel_complete chunk_size overlap units

theorem split_terminates_witness :
    splitFromFuel 5 (max 1 (5 - 2)) ("abcdefghij".data.length + 1) 0 "abcdefghij".data =
      some (slidingSplit 5 2 "abcdefghij".data) :=
  split_terminates Char "abcdefghij".data 5 2 (by decide) (by decide)

/-- C5: `CharSplitter` with `chunk_size = 5`, `overlap = 2` on "abcdefghij"
returns exactly ["abcde", "defgh", "ghij"]: the step is 3 and the loop stops
once a window reaches the end of the text. -/
theorem char_scenario_b :
    max 1 (5 - 2) = 3 ∧
      CharSplitter.split 5 2 "abcdefghij" = ["abcde", "defgh", "ghij"] := by
  constructor
  · rfl
  · decide

end RagSplitters

namespace RagSplitters

/-- C4 (code evaluated at the failing inputs): constructing splitters with
`chunk_size ≤ 0` or `overlap ≥ chunk_size` through the factory succeeds and
returns a constructed object — no configuration validation happens at
construction, contrary to the claim. -/
theorem construction_no_validation :
    build_splitter "char" 0 0 = Except.ok (Splitter.char 0 0) ∧
    build_splitter "token" 5 7 = Except.ok (Splitter.token 5 7) ∧
    build_splitter "sentence" (-3) 0 = Except.ok (Splitter.sentence (-3) 0) :=
  ⟨rfl, rfl, rfl⟩

/-- C8: `build_splitter` fails on every strategy name that is not
token/char/sentence after lowercasing, with an error naming the (normalized)
invalid value, and returns the corresponding splitter for the three
recognized names. -/
theorem build_splitter_spec (s : String) (chunk_size overlap : Int) :
    (lower s ≠ "token" ∧ lower s ≠ "char" ∧ lower s ≠ "sentence" →
      build_splitter s chunk_size overlap =
        Except.error ("Unsupported splitter_type: " ++ lower s)) ∧
    (lower s = "token" →
      build_splitter s chunk_size overlap =
        Except.ok (Splitter.token chunk_size overlap)) ∧
    (lower s = "char" →
      build_splitter s chunk_size overlap =
        Except.ok (Splitter.char chunk_size overlap)) ∧
    (lower s = "sentence" →
      build_splitter s chunk_size overlap =
        Except.ok (Splitter.sentence chunk_size overlap)) := by
  refine ⟨?_, ?_, ?_, ?_⟩
  · rintro ⟨h1, h2, h3⟩
    simp [build_splitter, h1, h2, h3]
  · intro h
    simp [build_splitter, h]
  · intro h
    have h1 : lower s ≠ "token" := by rw [h]; decide
    simp [build_splitter, h, h1]
  · intro h
    have h1 : lower s ≠ "token" := by rw [h]; decide
    have h2 : lower s ≠ "char" := by rw [h]; decide
    simp [build_splitter, h, h1, h2]

theorem build_splitter_spec_witness :
    build_splitter "XML" 10 0 =
      Except.error ("Unsupported splitter_type: " ++ lower "XML") :=
  (build_splitter_spec "XML" 10 0).1 (by refine ⟨?_, ?_, ?_⟩ <;> decide)

/-- C9: every strategy maps the empty input text to the empty chunk sequence
(for the token strategy, under the tokenizer law that the empty text encodes
to the empty token sequence, as tiktoken satisfies). -/
theorem split_empty (enc : String → List Nat) (dec : List Nat → String)
    (chunk_size overlap : Nat) (h1 : 1 ≤ chunk_size) (h2 : overlap < chunk_size)
    (henc : enc "" = []) :
    TokenSplitter.split enc dec chunk_size overlap "" = [] ∧
    CharSplitter.split chunk_size overlap "" = [] ∧
    SentenceSplitter.split chunk_size overlap "" = [] := by
  refine ⟨?_, rfl, ?_⟩
  · rw [TokenSplitter.split, henc]
    rfl
  · have hg : SentenceSplitter.greedyChunks chunk_size "" = [] := rfl
    rw [SentenceSplitter.split, SentenceSplitter.splitChars, hg]
    simp

theorem split_empty_witness :
    TokenSplitter.split encEx decEx 5 2 "" = [] ∧
    CharSplitter.split 5 2 "" = [] ∧
    SentenceSplitter.split 5 2 "" = [] :=
  split_empty encEx decEx 5 2 (by decide) (by decide) (by decide)

/-- C10: for non-empty input and any valid configuration, the last chunk of
`CharSplitter.split` is exactly the slice from some position `j` to the end of
the text (`len ≤ j + chunk_size`), so the early-break never drops a final
portion, and every character position is covered by some chunk; the analogous
property holds for `TokenSplitter.split` over its token sequence. -/
theorem split_covers_to_end (text : String) (enc : String → List Nat)
    (dec : List Nat → String) (chunk_size overlap : Nat)
    (h1 : 1 ≤ chunk_size) (h2 : overlap < chunk_size)
    (hne : text ≠ "") (hencne : enc text ≠ []) :
    ((∃ j, j < text.data.length ∧ text.data.length ≤ j + chunk_size ∧
        (CharSplitter.split chunk_size overlap text).getLast? =
          some (String.mk (text.data.drop j))) ∧
      (∀ k, k < text.data.length →
        ∃ c ∈ CharSplitter.split chunk_size overlap text,
          ∃ j, j ≤ k ∧ c.data[k - j]? = text.data[k]?)) ∧
    (∃ j, j < (enc text).length ∧ (enc text).length ≤ j + chunk_size ∧
        (TokenSplitter.split enc dec chunk_size overlap text).getLast? =
          some (dec ((enc text).drop j))) := by
  have hstep : max 1 (chunk_size - overlap) ≤ chunk_size := by omega
  constructor
  · have hlen : 0 < text.data.length := by
      rcases text with ⟨d⟩
      cases d with
      | nil => exact absurd rfl hne
      | cons c t => simp
    constructor
    · obtain ⟨j, hj1, hj2, hj3⟩ := splitFromFuel_getLast chunk_size
        (max 1 (chunk_size - overlap)) hstep (text.data.length + 1) 0 text.data
        (slidingSplit chunk_size overlap text.data)
        (splitFromFuel_complete chunk_size overlap text.data) hlen
      refine ⟨j, hj1, hj2, ?_⟩
      rw [CharSplitter.split, List.getLast?_map, hj3]
      rfl
    · intro k hk
      obtain ⟨c, hc, j, hj1, hj2, hj3⟩ := splitFromFuel_cover chunk_size
        (max 1 (chunk_size - overlap)) hstep (text.data.length + 1) 0 text.data
        (slidingSplit chunk_size overlap text.data)
        (splitFromFuel_complete chunk_size overlap text.data) k (Nat.zero_le k) hk
      refine ⟨String.mk c, ?_, j, hj1, ?_⟩
      · rw [CharSplitter.split]
        exact List.mem_map.mpr ⟨c, hc, rfl⟩
      · subst hj3
        show (List.take chunk_size (List.drop j text.data))[k - j]? = text.data[k]?
        rw [List.getElem?_take_of_lt (by omega), List.getElem?_drop]
        congr 1
        omega
  · have hlen : 0 < (enc text).length := List.length_pos.mpr hencne
    obtain ⟨j, hj1, hj2, hj3⟩ := splitFromFuel_getLast chunk_size
      (max 1 (chunk_size - overlap)) hstep ((enc text).length + 1) 0 (enc text)
      (slidingSplit chunk_size overlap (enc text))
      (splitFromFuel_complete chunk_size overlap (enc text)) hlen
    refine ⟨j, hj1, hj2, ?_⟩
    rw [TokenSplitter.split, List.getLast?_map, hj3]
    rfl

theorem split_covers_to_end_witness :
    (((∃ j, j < "abcdefghij".data.length ∧ "abcdefghij".data.length ≤ j + 5 ∧
        (CharSplitter.split 5 2 "abcdefghij").getLast? =
          some (String.mk ("abcdefghij".data.drop j))) ∧
      (∀ k, k < "abcdefghij".data.length →
        ∃ c ∈ CharSplitter.split 5 2 "abcdefghij",
          ∃ j, j ≤ k ∧ c.data[k - j]? = "abcdefghij".data[k]?)) ∧
    (∃ j, j < (encEx "abcdefghij").length ∧ (encEx "abcdefghij").length ≤ j + 5 ∧
        (TokenSplitter.split encEx decEx 5 2 "abcdefghij").getLast? =
          some (decEx ((encEx "abcdefghij").drop j)))) :=
  split_covers_to_end "abcdefghij" encEx decEx 5 2 (by decide) (by decide)
    (by decide) (by decide)

end RagSplitters

namespace RagSplitters

/-! ## Boundary lemmas for the sentence splitter -/

/-- Heads of pieces: the first character is not whitespace. -/
def HdOk (l : List Char) : Prop :=
  ∀ c, l.head? = some c → c.isWhitespace = false

/-- Tails of pieces: the last character is not whitespace. -/
def LastOk (l : List Char) : Prop :=
  ∀ c, l.getLast? = some c → c.isWhitespace = false

/-- A piece with no whitespace at either end (vacuously true of the empty piece). -/
def Bdry (l : List Char) : Prop := HdOk l ∧ LastOk l

theorem punct_not_ws (c : Char) (h : isPunct c = true) : c.isWhitespace = false := by
  simp [isPunct] at h
  rcases h with (h | h) | h <;> subst h <;> decide

theorem dropWhile_eq_self (p : Char → Bool) (l : List Char)
    (h : ∀ c, l.head? = some c → p c = false) : l.dropWhile p = l := by
  cases l with
  | nil => rfl
  | cons c t =>
    apply List.dropWhile_cons_of_neg
    simp [h c rfl]

theorem head?_dropWhile_false (p : Char → Bool) :
    ∀ (l : List Char) (c : Char), (l.dropWhile p).head? = some c → p c = false := by
  intro l
  induction l with
  | nil => intro c h; simp [List.dropWhile] at h
  | cons a t ih =>
    intro c h
    by_cases hp : p a
    · rw [List.dropWhile_cons_of_pos hp] at h
      exact ih c h
    · rw [List.dropWhile_cons_of_neg hp] at h
      simp only [List.head?_cons, Option.some.injEq] at h
      subst h
      simpa using hp

theorem getLast?_dropWhile (p : Char → Bool) :
    ∀ (l : List Char), l.dropWhile p ≠ [] → (l.dropWhile p).getLast? = l.getLast? := by
  intro l
  induction l with
  | nil => intro h; simp [List.dropWhile] at h
  | cons a t ih =>
    intro h
    by_cases hp : p a
    · rw [List.dropWhile_cons_of_pos hp] at h ⊢
      rw [ih h]
      have ht : t ≠ [] := by
        intro he
        rw [he] at h
        simp [List.dropWhile] at h
      cases t with
      | nil => exact absurd rfl ht
      | cons b t' => rw [List.getLast?_cons_cons]
    · rw [List.dropWhile_cons_of_neg hp]

theorem HdOk_strip (l : List Char) : HdOk (strip l) := by
  intro c hc
  rw [strip, List.head?_reverse] at hc
  have hne : (l.dropWhile Char.isWhitespace).reverse.dropWhile Char.isWhitespace ≠ [] := by
    intro he
    rw [he] at hc
    simp at hc
  rw [getLast?_dropWhile Char.isWhitespace _ hne, List.getLast?_reverse] at hc
  exact head?_dropWhile_false Char.isWhitespace l c hc

theorem LastOk_strip (l : List Char) : LastOk (strip l) := by
  intro c hc
  rw [strip, List.getLast?_reverse] at hc
  exact head?_dropWhile_false Char.isWhitespace _ c hc

theorem strip_eq_self (l : List Char) (h1 : HdOk l) (h2 : LastOk l) : strip l = l := by
  rw [strip, dropWhile_eq_self Char.isWhitespace l h1, dropWhile_eq_self, List.reverse_reverse]
  intro c hc
  rw [List.head?_reverse] at hc
  exact h2 c hc

theorem strip_space_cons (s : List Char) : strip (' ' :: s) = strip s := by
  rw [strip, strip, List.dropWhile_cons_of_pos (by decide)]

theorem strip_append (a b : List Char) (ha : a ≠ []) (hb : b ≠ [])
    (h1 : HdOk a) (h2 : LastOk b) : strip (a ++ ' ' :: b) = a ++ ' ' :: b := by
  apply strip_eq_self
  · intro c hc
    cases a with
    | nil => exact absurd rfl ha
    | cons a0 t =>
      simp only [List.cons_append, List.head?_cons, Option.some.injEq] at hc
      subst hc
      exact h1 a0 rfl
  · intro c hc
    rw [List.getLast?_append] at hc
    cases b with
    | nil => exact absurd rfl hb
    | cons b0 t =>
      rw [List.getLast?_cons_cons] at hc
      obtain ⟨x, hx⟩ := Option.isSome_iff_exists.mp (List.getLast?_isSome.mpr
        (List.cons_ne_nil b0 t))
      rw [hx] at hc
      have hxc : x = c := by
        simpa [Option.or] using hc
      subst hxc
      exact h2 x hx

end RagSplitters

namespace RagSplitters

/-- Invariant of the sentence-splitting state machine: every piece it emits has
no whitespace at either end, provided the input ends in a non-whitespace
character, the next character starts a fresh non-whitespace piece whenever the
accumulator is empty, and the accumulated piece has a non-whitespace first
character (with a non-whitespace last character available once input runs out). -/
theorem sentencesGo_bdry :
    ∀ (l acc : List Char) (inSep : Bool),
      LastOk l →
      (inSep = false → acc = [] → HdOk l) →
      (inSep = false → ∀ c, acc.getLast? = some c → c.isWhitespace = false) →
      (inSep = false → l = [] → ∀ c, acc.head? = some c → c.isWhitespace = false) →
      (inSep = true → acc = []) →
      ∀ p ∈ sentencesGo acc inSep l, Bdry p := by
  intro l
  induction l with
  | nil =>
    intro acc inSep hLast h2 h3 h4 h5 p hp
    cases inSep with
    | false =>
      simp only [sentencesGo, if_neg Bool.false_ne_true, List.mem_singleton] at hp
      subst hp
      constructor
      · intro c hc
        rw [List.head?_reverse] at hc
        exact h3 rfl c hc
      · intro c hc
        rw [List.getLast?_reverse] at hc
        exact h4 rfl rfl c hc
    | true =>
      simp only [sentencesGo, if_pos rfl, List.mem_singleton] at hp
      subst hp
      exact ⟨fun c hc => by simp at hc, fun c hc => by simp at hc⟩
  | cons c0 rest ih =>
    intro acc inSep hLast h2 h3 h4 h5 p hp
    have hLrest : LastOk rest := by
      intro x hx
      have hne : rest ≠ [] := by
        intro he
        rw [he] at hx
        simp at hx
      apply hLast
      cases rest with
      | nil => exact absurd rfl hne
      | cons b t => rw [List.getLast?_cons_cons]; exact hx
    cases inSep with
    | true =>
      have hacc := h5 rfl
      subst hacc
      simp only [sentencesGo, if_pos rfl] at hp
      by_cases hws : c0.isWhitespace
      · rw [if_pos hws] at hp
        exact ih [] true hLrest (by simp) (by simp) (by simp) (fun _ => rfl) p hp
      · rw [if_neg hws] at hp
        refine ih [c0] false hLrest (by simp) ?_ ?_ (by simp) p hp
        · intro _ c hc
          simp only [List.getLast?_singleton, Option.some.injEq] at hc
          subst hc
          simpa using hws
        · intro _ _ c hc
          simp only [List.head?_cons, Option.some.injEq] at hc
          subst hc
          simpa using hws
    | false =>
      simp only [sentencesGo, if_neg Bool.false_ne_true] at hp
      by_cases hsep : c0.isWhitespace && punctHead acc
      · rw [if_pos hsep] at hp
        rcases List.mem_cons.mp hp with hp | hp
        · subst hp
          constructor
          · intro c hc
            rw [List.head?_reverse] at hc
            exact h3 rfl c hc
          · intro c hc
            rw [List.getLast?_reverse] at hc
            have hpunct : punctHead acc = true := by
              rw [Bool.and_eq_true] at hsep
              exact hsep.2
            cases acc with
            | nil => simp [punctHead] at hpunct
            | cons a t =>
              simp only [List.head?_cons, Option.some.injEq] at hc
              subst hc
              exact punct_not_ws a (by simpa [punctHead] using hpunct)
        · exact ih [] true hLrest (by simp) (by simp) (by simp) (fun _ => rfl) p hp
      · rw [if_neg hsep] at hp
        refine ih (c0 :: acc) false hLrest (by simp) ?_ ?_ (by simp) p hp
        · intro _ c hc
          cases acc with
          | nil =>
            simp only [List.getLast?_singleton, Option.some.injEq] at hc
            subst hc
            exact h2 rfl rfl c0 rfl
          | cons a t =>
            rw [List.getLast?_cons_cons] at hc
            exact h3 rfl c hc
        · intro _ hrest c hc
          subst hrest
          simp only [List.head?_cons, Option.some.injEq] at hc
          subst hc
          exact hLast c0 rfl

/-- Every sentence piece produced from the stripped text has no whitespace at
either end. -/
theorem sentences_bdry (text : String) :
    ∀ s ∈ SentenceSplitter.sentences text, Bdry s := by
  intro s hs
  refine sentencesGo_bdry (strip text.data) [] false (LastOk_strip text.data)
    (fun _ _ => HdOk_strip text.data) ?_ ?_ (by simp) s hs
  · intro _ c hc
    simp at hc
  · intro _ _ c hc
    simp at hc

end RagSplitters

namespace RagSplitters

/-- Every chunk the greedy loop emits either satisfies the invariant `P` carried
by the sentences and the running chunk, or fits within the size budget. -/
theorem greedy_mem_bound (chunk_size : Nat) (P : List Char → Prop) :
    ∀ (S : List (List Char)) (cur : List Char),
      (∀ s ∈ S, P s) → (cur = [] ∨ P cur ∨ cur.length ≤ chunk_size) →
      ∀ c ∈ greedy chunk_size S cur, P c ∨ c.length ≤ chunk_size := by
  intro S
  induction S with
  | nil =>
    intro cur hS hcur c hc
    simp only [greedy] at hc
    by_cases he : cur.isEmpty
    · rw [if_pos he] at hc
      simp at hc
    · rw [if_neg he] at hc
      simp only [List.mem_singleton] at hc
      subst hc
      rcases hcur with h | h | h
      · rw [h] at he
        simp at he
      · exact Or.inl h
      · exact Or.inr h
  | cons s rest ih =>
    intro cur hS hcur c hc
    have hSrest : ∀ x ∈ rest, P x := fun x hx => hS x (List.mem_cons_of_mem _ hx)
    simp only [greedy] at hc
    by_cases hse : s.isEmpty
    · rw [if_pos hse] at hc
      exact ih cur hSrest hcur c hc
    · rw [if_neg hse] at hc
      by_cases hcand : (strip (cur ++ ' ' :: s)).length ≤ chunk_size
      · rw [if_pos hcand] at hc
        exact ih _ hSrest (Or.inr (Or.inr hcand)) c hc
      · rw [if_neg hcand] at hc
        have hPs : P s := hS s (List.mem_cons_self _ _)
        by_cases hce : cur.isEmpty
        · rw [if_pos hce] at hc
          exact ih s hSrest (Or.inr (Or.inl hPs)) c hc
        · rw [if_neg hce] at hc
          rcases List.mem_cons.mp hc with hc | hc
          · subst hc
            rcases hcur with h | h | h
            · rw [h] at hce
              simp at hce
            · exact Or.inl h
            · exact Or.inr h
          · exact ih s hSrest (Or.inr (Or.inl hPs)) c hc

/-- A running chunk already longer than the budget is emitted verbatim: no later
sentence can extend it, because the stripped space-joined candidate is strictly
longer than the budget. -/
theorem greedy_keeps_long (chunk_size : Nat) :
    ∀ (S : List (List Char)) (cur : List Char),
      (∀ s ∈ S, Bdry s) → cur ≠ [] → HdOk cur → chunk_size < cur.length →
      cur ∈ greedy chunk_size S cur := by
  intro S
  induction S with
  | nil =>
    intro cur hS hne hhd hlen
    simp only [greedy]
    rw [if_neg (by simpa [List.isEmpty_iff] using hne)]
    exact List.mem_singleton.mpr rfl
  | cons s rest ih =>
    intro cur hS hne hhd hlen
    simp only [greedy]
    by_cases hse : s.isEmpty
    · rw [if_pos hse]
      exact ih cur (fun x hx => hS x (List.mem_cons_of_mem _ hx)) hne hhd hlen
    · have hsne : s ≠ [] := by simpa [List.isEmpty_iff] using hse
      have hcand : strip (cur ++ ' ' :: s) = cur ++ ' ' :: s :=
        strip_append cur s hne hsne hhd (hS s (List.mem_cons_self _ _)).2
      have hclen : ¬ (strip (cur ++ ' ' :: s)).length ≤ chunk_size := by
        rw [hcand, List.length_append]
        simp only [List.length_cons]
        omega
      rw [if_neg hse, if_neg hclen, if_neg (by simpa [List.isEmpty_iff] using hne)]
      exact List.mem_cons_self _ _

/-- A sentence longer than the budget always survives as one of the greedy
chunks, emitted whole. -/
theorem greedy_reaches_long (chunk_size : Nat) :
    ∀ (S : List (List Char)) (cur : List Char),
      (∀ x ∈ S, Bdry x) → HdOk cur →
      ∀ s ∈ S, chunk_size < s.length → s ∈ greedy chunk_size S cur := by
  intro S
  induction S with
  | nil =>
    intro cur _ _ s hs
    simp at hs
  | cons s0 rest ih =>
    intro cur hS hcur s hs hslen
    have hS0 := hS s0 (List.mem_cons_self _ _)
    have hSrest : ∀ x ∈ rest, Bdry x := fun x hx => hS x (List.mem_cons_of_mem _ hx)
    simp only [greedy]
    rcases List.mem_cons.mp hs with rfl | hsrest
    · have hsne : s ≠ [] := by
        intro he
        rw [he] at hslen
        simp at hslen
      have hse : ¬ s.isEmpty = true := by simpa [List.isEmpty_iff] using hsne
      rw [if_neg hse]
      by_cases hce : cur.isEmpty
      · have hc0 : cur = [] := by simpa [List.isEmpty_iff] using hce
        subst hc0
        have hcand : strip ([] ++ ' ' :: s) = s := by
          rw [List.nil_append, strip_space_cons]
          exact strip_eq_self s hS0.1 hS0.2
        rw [hcand, if_neg (by omega : ¬ s.length ≤ chunk_size), if_pos hce]
        exact greedy_keeps_long chunk_size rest s hSrest hsne hS0.1 hslen
      · have hcne : cur ≠ [] := by simpa [List.isEmpty_iff] using hce
        have hcand : strip (cur ++ ' ' :: s) = cur ++ ' ' :: s :=
          strip_append cur s hcne hsne hcur hS0.2
        have hclen : ¬ (strip (cur ++ ' ' :: s)).length ≤ chunk_size := by
          rw [hcand, List.length_append]
          simp only [List.length_cons]
          omega
        rw [if_neg hclen, if_neg hce]
        exact List.mem_cons_of_mem _
          (greedy_keeps_long chunk_size rest s hSrest hsne hS0.1 hslen)
    · by_cases hse0 : s0.isEmpty
      · rw [if_pos hse0]
        exact ih cur hSrest hcur s hsrest hslen
      · rw [if_neg hse0]
        by_cases hclen : (strip (cur ++ ' ' :: s0)).length ≤ chunk_size
        · rw [if_pos hclen]
          exact ih _ hSrest (HdOk_strip _) s hsrest hslen
        · rw [if_neg hclen]
          by_cases hce : cur.isEmpty
          · rw [if_pos hce]
            exact ih s0 hSrest hS0.1 s hsrest hslen
          · rw [if_neg hce]
            exact List.mem_cons_of_mem _ (ih s0 hSrest hS0.1 s hsrest hslen)

end RagSplitters

namespace RagSplitters

/-- C7: the sentence splitter never truncates a sentence mid-way: every greedy
chunk is either one whole sentence (as produced by the sentence split) or has
length ≤ chunk_size, and a sentence whose length exceeds chunk_size is still
emitted whole as its own chunk. -/
theorem sentence_no_truncation (text : String) (chunk_size : Nat) :
    (∀ c ∈ SentenceSplitter.greedyChunks chunk_size text,
      c ∈ SentenceSplitter.sentences text ∨ c.length ≤ chunk_size) ∧
    (∀ s ∈ SentenceSplitter.sentences text, chunk_size < s.length →
      s ∈ SentenceSplitter.greedyChunks chunk_size text) := by
  constructor
  · intro c hc
    exact greedy_mem_bound chunk_size (fun x => x ∈ SentenceSplitter.sentences text)
      (SentenceSplitter.sentences text) [] (fun s hs => hs) (Or.inl rfl) c hc
  · intro s hs hlen
    exact greedy_reaches_long chunk_size (SentenceSplitter.sentences text) []
      (sentences_bdry text) (fun c hc => by simp at hc) s hs hlen

theorem sentence_no_truncation_witness :
    "abcdefgh.".data ∈ SentenceSplitter.greedyChunks 5 "abcdefgh. xy." :=
  (sentence_no_truncation "abcdefgh. xy." 5).2 "abcdefgh.".data (by decide) (by decide)

/-- The overlap rewrite preserves the number of chunks. -/
theorem overlapGo_length (overlap : Nat) :
    ∀ (rest : List (List Char)) (prev : List Char),
      (overlapGo overlap prev rest).length = rest.length := by
  intro rest
  induction rest with
  | nil => intro prev; rfl
  | cons c rest' ih =>
    intro prev
    simp only [overlapGo, List.length_cons, ih]

/-- Index form of the overlap rewrite: the chunk at position `i + 1` of the
rewritten list is the stripped space-join of the last `overlap` characters of
the rewritten chunk at position `i` with the original chunk at position `i + 1`
(all positions taken in `prev :: rewritten`). -/
theorem overlapGo_get (overlap : Nat) :
    ∀ (rest : List (List Char)) (prev : List Char) (i : Nat), i < rest.length →
      ∃ p c, (prev :: overlapGo overlap prev rest)[i]? = some p ∧
        rest[i]? = some c ∧
        (overlapGo overlap prev rest)[i]? = some (strip (takeLast overlap p ++ ' ' :: c)) := by
  intro rest
  induction rest with
  | nil =>
    intro prev i hi
    simp at hi
  | cons c rest' ih =>
    intro prev i hi
    cases i with
    | zero =>
      refine ⟨prev, c, ?_, ?_, ?_⟩ <;> simp [overlapGo]
    | succ i' =>
      have hi' : i' < rest'.length := by
        simp only [List.length_cons] at hi
        omega
      obtain ⟨p, c', h1, h2, h3⟩ :=
        ih (strip (takeLast overlap prev ++ ' ' :: c)) i' hi'
      refine ⟨p, c', ?_, ?_, ?_⟩
      · simpa [overlapGo] using h1
      · simpa using h2
      · simpa [overlapGo] using h3

/-- C6 (amended): when `overlap > 0` and the greedy phase produced more than one
chunk, the output has the same number of chunks, the first chunk is unchanged,
and every later chunk equals `strip(prev[-overlap:] ++ " " ++ orig)` — the last
`overlap` characters of the previous *output* chunk joined by a single space
with the original greedy chunk, with surrounding whitespace then stripped
(Python `f"{prefix} {chunk}".strip()`); when `overlap = 0` or at most one chunk
resulted, the chunks are returned unchanged. -/
theorem sentence_overlap_rewrite (chunk_size overlap : Nat) (text : String) :
    (0 < overlap → 1 < (SentenceSplitter.greedyChunks chunk_size text).length →
      (SentenceSplitter.splitChars chunk_size overlap text).length =
        (SentenceSplitter.greedyChunks chunk_size text).length ∧
      (SentenceSplitter.splitChars chunk_size overlap text)[0]? =
        (SentenceSplitter.greedyChunks chunk_size text)[0]? ∧
      (∀ i, i + 1 < (SentenceSplitter.greedyChunks chunk_size text).length →
        ∃ p c, (SentenceSplitter.splitChars chunk_size overlap text)[i]? = some p ∧
          (SentenceSplitter.greedyChunks chunk_size text)[i + 1]? = some c ∧
          (SentenceSplitter.splitChars chunk_size overlap text)[i + 1]? =
            some (strip (takeLast overlap p ++ ' ' :: c)))) ∧
    (¬ (0 < overlap ∧ 1 < (SentenceSplitter.greedyChunks chunk_size text).length) →
      SentenceSplitter.splitChars chunk_size overlap text =
        SentenceSplitter.greedyChunks chunk_size text) := by
  constructor
  · intro hov hlen
    cases hch : SentenceSplitter.greedyChunks chunk_size text with
    | nil =>
      rw [hch] at hlen
      simp at hlen
    | cons c0 rest =>
      have hsplit : SentenceSplitter.splitChars chunk_size overlap text =
          c0 :: overlapGo overlap c0 rest := by
        rw [SentenceSplitter.splitChars, if_pos ⟨hov, hlen⟩, hch]
      refine ⟨?_, ?_, ?_⟩
      · rw [hsplit]
        simp [overlapGo_length]
      · rw [hsplit]
        simp
      · intro i hienv
        have hi : i < rest.length := by
          simp only [List.length_cons] at hienv
          omega
        obtain ⟨p, c, h1, h2, h3⟩ := overlapGo_get overlap rest c0 i hi
        refine ⟨p, c, ?_, ?_, ?_⟩
        · rw [hsplit]
          exact h1
        · simpa using h2
        · rw [hsplit]
          simpa using h3
  · intro hneg
    rw [SentenceSplitter.splitChars, if_neg hneg]

theorem sentence_overlap_rewrite_witness :
    (SentenceSplitter.splitChars 4 3 "x y. a. b.").length =
      (SentenceSplitter.greedyChunks 4 "x y. a. b.").length :=
  (((sentence_overlap_rewrite 4 3 "x y. a. b.").1 (by decide) (by decide)).1)

/-- C6 counterexample to the claim as stated: on the input "x y. a. b." with
chunk_size = 4 and overlap = 3 the greedy chunks are ["x y.", "a.", "b."], but
the second output chunk is "y. a.", not the plain space-join " y. a." of the
last 3 characters of the previous output chunk with the original chunk — the
code additionally strips the joined string. -/
theorem sentence_overlap_not_plain_join :
    SentenceSplitter.greedyChunks 4 "x y. a. b." = ["x y.".data, "a.".data, "b.".data] ∧
    SentenceSplitter.split 4 3 "x y. a. b." = ["x y.", "y. a.", "a. b."] ∧
    ("y. a." : String).data ≠ takeLast 3 "x y.".data ++ ' ' :: "a.".data := by
  exact ⟨by decide, by decide, by decide⟩

end RagSplitters
